import Mathlib

/-!
Verification of the yap package installer (Python sources: resolver.py,
yap.py, main.py, errors.py) against its natural-language specification.

The Python code is shallowly embedded: strings are manipulated as `List Char`
via structurally recursive helpers (so that every definition evaluates by
kernel reduction), Python exceptions are `Option`/`Except` failures, and the
third-party libraries `semver` and `semantic_version` are modelled from their
documented behaviour where the code calls into them.
-/

set_option autoImplicit false

/-! ## String helpers (structural recursion over `List Char`)

Python string primitives used by the sources, re-implemented over `List Char`
so that all evaluations reduce in the kernel. -/

/-- Python `s.split(sep)` for a single-character separator `sep`:
splits at every occurrence, keeping empty pieces. -/
def splitCh (sep : Char) : List Char → List Char → List (List Char)
  | [], acc => [acc.reverse]
  | c :: rest, acc =>
    if c = sep then acc.reverse :: splitCh sep rest []
    else splitCh sep rest (c :: acc)

/-- Python `s.split("||")`: splits at every non-overlapping occurrence of
`||`, scanning left to right. -/
def splitOrOr : List Char → List Char → List (List Char)
  | [], acc => [acc.reverse]
  | '|' :: '|' :: rest, acc => acc.reverse :: splitOrOr rest []
  | c :: rest, acc => splitOrOr rest (c :: acc)

/-- Python `str.strip()`: remove leading and trailing whitespace. -/
def trimCh (l : List Char) : List Char :=
  ((l.dropWhile Char.isWhitespace).reverse.dropWhile Char.isWhitespace).reverse

/-- Python `s.split()` (no argument): split on whitespace runs, no empty pieces. -/
def splitWs (l : List Char) : List (List Char) :=
  (splitCh ' ' (l.map fun c => if c.isWhitespace then ' ' else c) []).filter (· ≠ [])

/-- Python `s.startswith(p)`. -/
def startsWithCh (s p : List Char) : Bool :=
  p.isPrefixOf s

/-- Rejoin pieces with a separator character (inverse of splitting at the
first occurrence: `intercalateCh sep (p :: ps)` restores the original tail). -/
def intercalateCh (sep : Char) : List (List Char) → List Char
  | [] => []
  | [p] => p
  | p :: ps => p ++ sep :: intercalateCh sep ps

/-- Value of a decimal digit string (Python `int`, which the `semver` library
applies to numeric identifiers). -/
def digitsToNat (l : List Char) : Nat :=
  l.foldl (fun n c => n * 10 + (c.toNat - 48)) 0

/-! ## The semver data model

`semver.VersionInfo` from the python-semver library (used by resolver.py and
main.py). Modelled from the library's documented behaviour: a parsed version
is a major/minor/patch triple with optional prerelease and build strings. -/

structure VersionInfo where
  major : Nat
  minor : Nat
  patch : Nat
  prerelease : Option (List Char)
  build : Option (List Char)
  deriving DecidableEq, Repr

/-- A numeric core component per the semver grammar: `0|[1-9]\d*`. -/
def parseNumPart (l : List Char) : Option Nat :=
  if l ≠ [] ∧ l.all Char.isDigit ∧ (l = ['0'] ∨ l.head? ≠ some '0') then
    some (digitsToNat l)
  else none

/-- A valid prerelease identifier: nonempty, over `[0-9A-Za-z-]`, and with no
leading zero when purely numeric (semver grammar used by python-semver). -/
def validPreId (l : List Char) : Bool :=
  !l.isEmpty && l.all (fun c => c.isAlpha || c.isDigit || c = '-') &&
    (!(l.all Char.isDigit) || l = ['0'] || decide (l.head? ≠ some '0'))

/-- A valid build identifier: nonempty, over `[0-9A-Za-z-]`. -/
def validBuildId (l : List Char) : Bool :=
  !l.isEmpty && l.all (fun c => c.isAlpha || c.isDigit || c = '-')

/-- The `M.m.p` core of a version string. -/
def parseCore (l : List Char) : Option (Nat × Nat × Nat) :=
  match splitCh '.' l [] with
  | [ma, mi, pa] =>
    match parseNumPart ma, parseNumPart mi, parseNumPart pa with
    | some a, some b, some c => some (a, b, c)
    | _, _, _ => none
  | _ => none

/-- `semver.VersionInfo.parse`: accepts exactly `M.m.p[-prerelease][+build]`
(the anchored regex of python-semver); `none` models the `ValueError` the
library raises on malformed input. The build part starts at the first `+`,
the prerelease at the first `-` before it. -/
def VersionInfo.parse (s : String) : Option VersionInfo :=
  let pieces := splitCh '+' s.data []
  let withBuild : Option (List Char × Option (List Char)) :=
    match pieces with
    | [core] => some (core, none)
    | [core, b] => if (splitCh '.' b []).all validBuildId then some (core, some b) else none
    | _ => none
  match withBuild with
  | none => none
  | some (core, build) =>
    let withPre : Option (List Char × Option (List Char)) :=
      match splitCh '-' core [] with
      | [c] => some (c, none)
      | c :: rest =>
        let pre := intercalateCh '-' rest
        if (splitCh '.' pre []).all validPreId then some (c, some pre) else none
      | [] => none
    match withPre with
    | none => none
    | some (c, pre) =>
      match parseCore c with
      | none => none
      | some (ma, mi, pa) => some ⟨ma, mi, pa, pre, build⟩

/-! ## Semver precedence

python-semver compares versions by the tuple (major, minor, patch, prerelease)
and ignores build metadata.  A version without prerelease is greater than one
with; prerelease strings are split on `.`; identifiers that are all digits
compare as integers and are smaller than alphanumeric ones, which compare as
strings (ASCII order).  We realise this as an `Ordering`-valued comparison
built from small lawful pieces. -/

/-- Python integer comparison as an `Ordering`. -/
def ncmp (a b : Nat) : Ordering :=
  if a < b then .lt else if b < a then .gt else .eq

/-- A prerelease identifier after python-semver's `convert`: an integer when
purely numeric, otherwise the raw string. -/
inductive PreId where
  | num (n : Nat)
  | alpha (s : List Char)
  deriving DecidableEq, Repr

/-- Character comparison by code point (Python string comparison is
code-point lexicographic). -/
def charCmp (a b : Char) : Ordering :=
  ncmp a.toNat b.toNat

/-- Lexicographic comparison of lists induced by an element comparison;
a strict prefix is smaller. -/
def lexCmp {α : Type} (f : α → α → Ordering) : List α → List α → Ordering
  | [], [] => .eq
  | [], _ :: _ => .lt
  | _ :: _, [] => .gt
  | a :: as, b :: bs =>
    match f a b with
    | .eq => lexCmp f as bs
    | o => o

/-- python-semver `cmp_prerelease_tag`: two numeric identifiers compare as
integers, a numeric identifier is smaller than an alphanumeric one, two
alphanumeric identifiers compare as strings. -/
def preIdCmp : PreId → PreId → Ordering
  | .num a, .num b => ncmp a b
  | .num _, .alpha _ => .lt
  | .alpha _, .num _ => .gt
  | .alpha a, .alpha b => lexCmp charCmp a b

/-- Lift a comparison to `Option`, placing `none` above every `some`
(a version without prerelease is greater). -/
def optTopCmp {α : Type} (f : α → α → Ordering) : Option α → Option α → Ordering
  | none, none => .eq
  | none, some _ => .gt
  | some _, none => .lt
  | some a, some b => f a b

/-- Compose comparisons lexicographically over a pair. -/
def pairCmp {α β : Type} (f : α → α → Ordering) (g : β → β → Ordering)
    (p q : α × β) : Ordering :=
  (f p.1 q.1).then (g p.2 q.2)

/-- python-semver `convert`: a prerelease identifier that is all digits
becomes an integer. -/
def toPreId (l : List Char) : PreId :=
  if !l.isEmpty && l.all Char.isDigit then .num (digitsToNat l) else .alpha l

/-- The key of a prerelease string: its `.`-separated identifiers. -/
def preKeyOf (p : List Char) : List PreId :=
  (splitCh '.' p []).map toPreId

/-- The comparison key of a version: build metadata is dropped, the
prerelease string is split into identifiers. -/
def vkey (v : VersionInfo) : Nat × Nat × Nat × Option (List PreId) :=
  (v.major, v.minor, v.patch, v.prerelease.map preKeyOf)

/-- Comparison on version keys. -/
def vkeyCmp : Nat × Nat × Nat × Option (List PreId) →
    Nat × Nat × Nat × Option (List PreId) → Ordering :=
  pairCmp ncmp (pairCmp ncmp (pairCmp ncmp (optTopCmp (lexCmp preIdCmp))))

/-- Semver precedence comparison of two parsed versions, as implemented by
python-semver's `_compare` (build metadata ignored). -/
def vcmp (a b : VersionInfo) : Ordering :=
  vkeyCmp (vkey a) (vkey b)

/-! ## resolver.py: check_version and resolve_version

`src/resolver.py` and `src/main.py` contain character-identical copies of
these two functions (`resolve_version` is named `resolve_package_version` in
main.py); we embed them once. -/

/-- Python `"-" in constraint`. -/
def hasHyphen (c : List Char) : Bool := c.contains '-'

/-- Python `"||" in constraint`. -/
def hasOrOr (c : List Char) : Bool :=
  match splitOrOr c [] with
  | [_] => false
  | _ => true

/-- One branch chain of `check_version` from resolver.py, without the `||`
branch.  The source tests, in order: prefix `>` (so a `>=` constraint takes
this branch and `semver.VersionInfo.parse("=...")` raises, modelled by
`none`), dead branch `>=`, prefix `<`, dead branch `<=`, prefix `~`, prefix
`^`, a hyphen anywhere (split on every `-`; `lower, upper = ...` raises on a
piece count other than two; the chained comparison short-circuits, so the
upper bound is only parsed when the lower bound is satisfied), and otherwise
exact equality of parsed versions. -/
def check_atom (vi : VersionInfo) (c : List Char) : Option Bool :=
  if startsWithCh c ['>'] then
    (VersionInfo.parse ⟨c.drop 1⟩).map fun b => vcmp vi b == .gt
  else if startsWithCh c ['>', '='] then
    (VersionInfo.parse ⟨c.drop 2⟩).map fun b => vcmp vi b != .lt
  else if startsWithCh c ['<'] then
    (VersionInfo.parse ⟨c.drop 1⟩).map fun b => vcmp vi b == .lt
  else if startsWithCh c ['<', '='] then
    (VersionInfo.parse ⟨c.drop 2⟩).map fun b => vcmp vi b != .gt
  else if startsWithCh c ['~'] then
    (VersionInfo.parse ⟨c.drop 1⟩).map fun b =>
      vi.major == b.major && vi.minor == b.minor
  else if startsWithCh c ['^'] then
    (VersionInfo.parse ⟨c.drop 1⟩).map fun b =>
      (vi.major == b.major && b.minor ≤ vi.minor) || b.major < vi.major
  else if hasHyphen c then
    match splitCh '-' c [] with
    | [l, u] =>
      (VersionInfo.parse ⟨trimCh l⟩).bind fun lo =>
        if vcmp lo vi = .gt then some false
        else (VersionInfo.parse ⟨trimCh u⟩).map fun hi => vcmp vi hi != .gt
    | _ => none
  else
    (VersionInfo.parse ⟨c⟩).map fun b => vcmp vi b == .eq

/-- Python `any(check_version(version_info, r.strip()) for r in ...)`:
short-circuiting disjunction; an exception in a disjunct propagates. -/
def anyPiece (vi : VersionInfo) : List (List Char) → Option Bool
  | [] => some false
  | p :: ps =>
    (check_atom vi (trimCh p)).bind fun b =>
      if b then some true else anyPiece vi ps

/-- `check_version(version_info, constraint)` from resolver.py (identical in
main.py).  The source recurses on the `||` pieces; a piece produced by
splitting on `||` never contains `||`, so the recursive call always lands in
the non-`||` chain, which is `check_atom`; we call `check_atom` directly to
keep the recursion structural. -/
def check_version (vi : VersionInfo) (c : List Char) : Option Bool :=
  if !startsWithCh c ['>'] && !startsWithCh c ['<'] && !startsWithCh c ['~'] &&
      !startsWithCh c ['^'] && !hasHyphen c && hasOrOr c then
    anyPiece vi (splitOrOr c [])
  else
    check_atom vi c

/-- Python `max(iterable, key=semver.VersionInfo.parse)` over strings, with
the left-to-right scan `if key(x) > key(cur): cur = x` (first maximum wins on
precedence ties); a parse failure anywhere or an empty iterable is an
exception, modelled by `none`. -/
def pymaxGo (cur : String) (curK : VersionInfo) : List String → Option String
  | [] => some cur
  | y :: ys =>
    (VersionInfo.parse y).bind fun ky =>
      if vcmp ky curK = .gt then pymaxGo y ky ys else pymaxGo cur curK ys

/-- Python `max(l, key=semver.VersionInfo.parse)`. -/
def pymaxBy (l : List String) : Option String :=
  match l with
  | [] => none
  | x :: xs => (VersionInfo.parse x).bind fun kx => pymaxGo x kx xs

/-- `all(check_version(semver.VersionInfo.parse(version), c) for c in cs)`:
short-circuiting conjunction over the constraints for one parsed version. -/
def checkFold (vi : VersionInfo) : List (List Char) → Option Bool
  | [] => some true
  | c :: rest =>
    (check_version vi c).bind fun b =>
      if b then checkFold vi rest else some false

/-- The filter body of resolve_version for one version string: with no
constraints the generator is empty and the version string is never parsed;
otherwise it is parsed once and checked against each constraint in turn. -/
def checkAllConstraints (cs : List (List Char)) (v : String) : Option Bool :=
  match cs with
  | [] => some true
  | _ :: _ => (VersionInfo.parse v).bind fun vi => checkFold vi cs

/-- The list comprehension of resolve_version: keep the versions whose checks
all pass, propagating exceptions in source order. -/
def filterValid (cs : List (List Char)) : List String → Option (List String)
  | [] => some []
  | v :: vs =>
    (checkAllConstraints cs v).bind fun b =>
      (filterValid cs vs).map fun rest => if b then v :: rest else rest

/-- `resolve_version(package_version, available_versions)` from resolver.py;
the same code appears as `resolve_package_version` in main.py.  The result is
`none` for a raised exception, `some none` for a returned Python `None`, and
`some (some v)` for a returned version string. -/
def resolve_version (package_version : String) (available_versions : List String) :
    Option (Option String) :=
  if package_version = "" ∨ package_version = "*" then
    match pymaxBy available_versions with
    | none => none
    | some v => some (some v)
  else if startsWithCh package_version.data ['g', 'i', 't', '+'] ∨
      startsWithCh package_version.data ['n', 'p', 'm', ':'] ∨
      startsWithCh package_version.data ['g', 'i', 't', ':'] then
    some none
  else
    match filterValid (splitWs package_version.data) available_versions with
    | none => none
    | some valid =>
      if valid = [] then some none
      else
        match pymaxBy valid with
        | none => none
        | some v => some (some v)

/-- The match predicate of the specification's Select operation, read off the
code: the wildcard specifiers match everything; otherwise a version matches
when every whitespace-separated constraint checks true. -/
def specMatches (s : String) (v : String) : Option Bool :=
  if s = "" ∨ s = "*" then some true
  else checkAllConstraints (splitWs s.data) v

/-- `x` precedes or equals `y` by semver precedence (both sides parse and the
comparison is not `gt`). -/
def semverLe (x y : String) : Prop :=
  ∃ a b, VersionInfo.parse x = some a ∧ VersionInfo.parse y = some b ∧
    vcmp a b ≠ .gt

/-! ## yap.py: the semantic_version library fragment

yap.py resolves versions through `semantic_version.NpmSpec(wanted).select(...)`.
Modelled from that library's documented npm semantics on the specifier forms
exercised in this development: exact versions, caret ranges and the wildcard.
Any other specifier maps to `none` (an exception aborting the run), which
only narrows the set of runs our conditional theorems speak about. -/

/-- npm caret semantics (documented behaviour of `semantic_version.NpmSpec`):
the left-most non-zero component is the compatibility pivot. -/
def caretNpm (c vi : VersionInfo) : Bool :=
  if 0 < c.major then vi.major == c.major && vcmp vi c != .lt
  else if 0 < c.minor then
    vi.major == 0 && vi.minor == c.minor && vcmp vi c != .lt
  else vcmp vi c == .eq

/-- Whether a version string satisfies an NpmSpec of the modelled fragment;
`none` when the specifier or version is outside the fragment. -/
def npmMatch (spec : String) (v : String) : Option Bool :=
  if spec = "*" ∨ spec = "" then (VersionInfo.parse v).map fun _ => true
  else if startsWithCh spec.data ['^'] then
    (VersionInfo.parse ⟨spec.data.drop 1⟩).bind fun c =>
      (VersionInfo.parse v).map fun vi => caretNpm c vi
  else
    (VersionInfo.parse spec).bind fun c =>
      (VersionInfo.parse v).map fun vi => vcmp vi c == .eq

/-- Collect the versions matching a spec, propagating out-of-fragment
failures. -/
def npmMatching (spec : String) : List String → Option (List String)
  | [] => some []
  | v :: vs =>
    (npmMatch spec v).bind fun b =>
      (npmMatching spec vs).map fun rest => if b then v :: rest else rest

/-- `semantic_version.NpmSpec(spec).select(versions)` (modelled): the highest
matching version, Python `None` (here `some none`) when nothing matches,
`none` for an exception. -/
def npmSpecSelect (spec : String) (avail : List String) : Option (Option String) :=
  match npmMatching spec avail with
  | none => none
  | some [] => some none
  | some (m :: ms) =>
    match pymaxBy (m :: ms) with
    | none => none
    | some v => some (some v)

/-- Python `selected_version.__str__()`: on `None` this is the string
`"None"`. -/
def pyOptStr : Option String → String
  | none => "None"
  | some v => v

/-- `resolve_version(wanted_version, available_versions)` from yap.py: build
the NpmSpec, select, and stringify the result -- including `None`.  The
select function is a parameter so that the graph theorems hold for any
choice; `none` models a raised exception. -/
def resolve_version_yap (sel : String → List String → Option (Option String))
    (wanted : String) (avail : List String) : Option String :=
  (sel wanted avail).map pyOptStr

/-! ## yap.py: the resolver graph walk

`resolve_single_dependency` / `resolve_dependency_and_queue_urls` walk the
dependency graph, gate each package name through the shared
`METADATA_DOWNLOADED_PACKAGES` set, and append one lock-file entry per
resolved package after its dependencies.  The thread pool awaits every
submitted child before the parent entry is appended; we model the sequential
schedule of that traversal.  The mutual recursion is defunctionalised into a
single function over a `Sum` (a package task on the left, a dependency list
on the right) structurally consuming fuel, so that runs evaluate by kernel
reduction; `recursionError` models Python's recursion limit. -/

inductive PyError where
  | metadataError
  | keyError
  | indexError
  | valueError
  | networkError
  | recursionError
  | isADirectoryError
  | fileExistsError
  | fileNotFoundError
  deriving DecidableEq, Repr

/-- One version's registry metadata: the fields yap.py reads. -/
structure VersionMetadata where
  tarball : String
  dependencies : List (String × String)
  deriving DecidableEq, Repr

/-- A registry document: `versions` keyed by version string. -/
structure PackageMetadata where
  versions : List (String × VersionMetadata)
  deriving DecidableEq, Repr

/-- The registry, as the finite name-to-document map the run can observe;
a missing name models a fetch failure. -/
abbrev Registry : Type := List (String × PackageMetadata)

/-- A lock-file entry appended by resolve_single_dependency. -/
structure PlanEntry where
  url : String
  name : String
  version : String
  dependencies : List (String × String)
  deriving DecidableEq, Repr

/-- The resolver's mutable state: the seen-set and the lock-file list. -/
structure RState where
  seen : List String
  plan : List PlanEntry
  deriving DecidableEq, Repr

/-- `safe_package_details(package_str)` from yap.py: split an `npm:` alias
payload on `@`; `none` models the IndexError raised when the expected pieces
are missing. -/
def safe_package_details (s : String) : Option (String × String) :=
  if startsWithCh s.data ['@'] then
    match splitCh '@' s.data [] with
    | _ :: p1 :: p2 :: _ => some (⟨'@' :: p1⟩, ⟨p2⟩)
    | _ => none
  else
    match splitCh '@' s.data [] with
    | p0 :: p1 :: _ => some (⟨p0⟩, ⟨p1⟩)
    | _ => none

/-- The resolver traversal.  `.inl (name, spec)` is one
`resolve_single_dependency(name, spec)` call: gate on the seen-set, skip
`git+`/`git:` specifiers, rewrite `npm:` aliases through
`safe_package_details`, fetch metadata, resolve the version (yap.py's
truthiness guard only catches the empty string, the stringified `None` passes
it), look the chosen version up in the document, recurse into its
dependencies and append the entry.  `.inr deps` is one
`resolve_dependency_and_queue_urls(deps)` expansion. -/
def resolveGo (sel : String → List String → Option (Option String))
    (reg : Registry) :
    Nat → (String × String) ⊕ List (String × String) → RState →
    Except PyError RState
  | 0, _, _ => .error .recursionError
  | _ + 1, .inr [], st => .ok st
  | fuel + 1, .inr ((n, s) :: rest), st =>
    match resolveGo sel reg fuel (.inl (n, s)) st with
    | .error e => .error e
    | .ok st1 => resolveGo sel reg fuel (.inr rest) st1
  | fuel + 1, .inl (name, spec), st =>
    if name ∈ st.seen then .ok st
    else
      if startsWithCh spec.data ['g', 'i', 't', '+'] ∨
          startsWithCh spec.data ['g', 'i', 't', ':'] then
        .ok ⟨name :: st.seen, st.plan⟩
      else
        match
          (if startsWithCh spec.data ['n', 'p', 'm', ':'] then
            safe_package_details ⟨spec.data.drop 4⟩
          else some (name, spec)) with
        | none => .error .indexError
        | some (name2, spec2) =>
          match reg.lookup name2 with
          | none => .error .networkError
          | some md =>
            match resolve_version_yap sel spec2 (md.versions.map Prod.fst) with
            | none => .error .valueError
            | some rv =>
              if rv = "" then .error .metadataError
              else
                match md.versions.lookup rv with
                | none => .error .keyError
                | some vm =>
                  match resolveGo sel reg fuel (.inr vm.dependencies)
                      ⟨name :: st.seen, st.plan⟩ with
                  | .error e => .error e
                  | .ok st2 =>
                    .ok ⟨st2.seen, st2.plan ++ [⟨vm.tarball, name2, rv, vm.dependencies⟩]⟩

/-- `resolve_single_dependency(package_name, version, lock_file_details)`. -/
def resolve_single_dependency (sel : String → List String → Option (Option String))
    (reg : Registry) (fuel : Nat) (name spec : String) (st : RState) :
    Except PyError RState :=
  resolveGo sel reg fuel (.inl (name, spec)) st

/-- `resolve_dependency_and_queue_urls(dependencies, lock_file_details)`. -/
def resolve_dependency_and_queue_urls
    (sel : String → List String → Option (Option String))
    (reg : Registry) (fuel : Nat) (deps : List (String × String)) (st : RState) :
    Except PyError RState :=
  resolveGo sel reg fuel (.inr deps) st

/-- The plan of a completed run; a failed run has no plan. -/
def planNamesOf (r : Except PyError RState) : List String :=
  match r with
  | .ok st => st.plan.map PlanEntry.name
  | .error _ => []

/-- Plan-closure invariant I2: every dependency name mentioned by a plan
entry of a completed run is itself a plan entry name. -/
def planClosed (r : Except PyError RState) : Prop :=
  match r with
  | .ok st =>
    ∀ e ∈ st.plan, ∀ d ∈ e.dependencies, d.1 ∈ st.plan.map PlanEntry.name
  | .error _ => True

instance (r : Except PyError RState) : Decidable (planClosed r) := by
  unfold planClosed
  cases r
  case error _ => exact inferInstanceAs (Decidable True)
  case ok st =>
    exact inferInstanceAs (Decidable (∀ e ∈ st.plan, ∀ d ∈ e.dependencies, _))

/-- No specifier of the top-level dependency list is an `npm:` alias. -/
def noAliasDeps (deps : List (String × String)) : Bool :=
  deps.all fun q => !startsWithCh q.2.data ['n', 'p', 'm', ':']

/-- No dependency specifier reachable through the registry is an `npm:`
alias. -/
def noAliasReg (reg : Registry) : Bool :=
  reg.all fun p => p.2.versions.all fun q => noAliasDeps q.2.dependencies

/-- A specifier that is neither a git form nor an `npm:` alias. -/
def cleanSpec (s : String) : Bool :=
  !startsWithCh s.data ['g', 'i', 't', '+'] &&
    !startsWithCh s.data ['g', 'i', 't', ':'] &&
    !startsWithCh s.data ['n', 'p', 'm', ':']

/-- All top-level specifiers are clean. -/
def cleanDeps (deps : List (String × String)) : Bool :=
  deps.all fun q => cleanSpec q.2

/-- All specifiers reachable through the registry are clean. -/
def cleanReg (reg : Registry) : Bool :=
  reg.all fun p => p.2.versions.all fun q => cleanDeps q.2.dependencies

/-! ## yap.py: the metadata cache

`set_to_metadata_cache` / `get_from_metadata_cache`.  The cache directory is
modelled as a map from file names to the stored documents; `pickle` round
trips a serialisable document to itself, so the stored value is the document.
Both operations key the file by `name.replace("/", "_")`. -/

/-- `name.replace("/", "_")`: the cache file name of a package name. -/
def cacheFileName (name : String) : String :=
  ⟨name.data.map fun c => if c = '/' then '_' else c⟩

/-- `set_to_metadata_cache(name, contents)`: write the pickled contents to
the escaped file name. -/
def set_to_metadata_cache {δ : Type} (cache : String → Option δ)
    (name : String) (contents : δ) : String → Option δ :=
  fun f => if f = cacheFileName name then some contents else cache f

/-- `get_from_metadata_cache(name)`: read the escaped file name back, `none`
when the file does not exist. -/
def get_from_metadata_cache {δ : Type} (cache : String → Option δ)
    (name : String) : Option δ :=
  match cache (cacheFileName name) with
  | some contents => some contents
  | none => none

/-! ## yap.py: create_symlink

The destination slot in `node_modules/` is one of: absent, a regular file, a
directory, or a symlink -- whose chain either resolves to a file, resolves to
a directory, or dangles.  `Path.exists()` and `Path.is_file()` both follow
symlinks; `Path.unlink()` removes the entry itself but raises on a
directory; `os.symlink` raises `FileExistsError` when any entry (including a
dangling symlink) occupies the destination. -/

inductive FsKind where
  | file
  | dir
  | symlinkToFile
  | symlinkToDir
  | danglingSymlink
  deriving DecidableEq, Repr

/-- `Path.exists()`: follows symlinks, so a dangling symlink does not exist. -/
def path_exists : Option FsKind → Bool
  | none => false
  | some .file => true
  | some .dir => true
  | some .symlinkToFile => true
  | some .symlinkToDir => true
  | some .danglingSymlink => false

/-- `Path.is_file()`: follows symlinks. -/
def path_is_file : Option FsKind → Bool
  | some .file => true
  | some .symlinkToFile => true
  | _ => false

/-- `Path.unlink()`: removes the entry (also a symlink, dangling or not),
raises on a directory or a missing path. -/
def unlinkFs : Option FsKind → Except PyError (Option FsKind)
  | none => .error .fileNotFoundError
  | some .dir => .error .isADirectoryError
  | some _ => .ok none

/-- `create_symlink(source, destination)` from yap.py, acting on the
destination slot (the `mkdir` of the parent does not touch the slot): unlink
when `destination.exists() or destination.is_file()`, then `os.symlink`,
which fails if a filesystem entry is still present.  The created link points
at the intended `.yap` store directory. -/
def create_symlink (dest : Option FsKind) : Except PyError (Option FsKind) :=
  match (if path_exists dest || path_is_file dest then unlinkFs dest else .ok dest) with
  | .error e => .error e
  | .ok d =>
    match d with
    | some _ => .error .fileExistsError
    | none => .ok (some .symlinkToDir)

/-- `symlink_to_root(package)`: compute the store path and call
`create_symlink` on the `node_modules/<name>` slot. -/
def symlink_to_root (dest : Option FsKind) : Except PyError (Option FsKind) :=
  create_symlink dest

/-! ## Remaining definitions: lawfulness predicate, extracted branches,
concrete scenarios -/

/-- A comparison is lawful when `.eq` characterises equality, `.gt` is
transitive and swapping the arguments swaps the outcome. -/
structure IsLawfulCmp {α : Type} (f : α → α → Ordering) : Prop where
  eq_iff : ∀ a b, f a b = .eq ↔ a = b
  gt_trans : ∀ a b c, f a b = .gt → f b c = .gt → f a c = .gt
  swap_eq : ∀ a b, f a b = (f b a).swap

/-- The hyphen-range branch of `check_version`, extracted: split the token on
every `-`, strip the two pieces, and test the inclusive range. -/
def hyphenRangeCheck (vi : VersionInfo) (c : List Char) : Option Bool :=
  match splitCh '-' c [] with
  | [l, u] =>
    (VersionInfo.parse ⟨trimCh l⟩).bind fun lo =>
      if vcmp lo vi = .gt then some false
      else (VersionInfo.parse ⟨trimCh u⟩).map fun hi => vcmp vi hi != .gt
  | _ => none

/-- Registry scenario for the alias collision: one package `bar` at 1.0.0
with no dependencies. -/
def regAlias : Registry :=
  [("bar", ⟨[("1.0.0", ⟨"u", []⟩)]⟩)]

/-- A run whose root dependencies request `bar` both through an `npm:` alias
(under the name `foo`) and directly. -/
def runAlias : Except PyError RState :=
  resolve_dependency_and_queue_urls npmSpecSelect regAlias 5
    [("foo", "npm:bar@1.0.0"), ("bar", "1.0.0")] ⟨[], []⟩

/-- Registry scenario for the git closure gap: `a` at 1.0.0 depends on `g`
via a `git+` specifier. -/
def regGit : Registry :=
  [("a", ⟨[("1.0.0", ⟨"u", [("g", "git+https://e/g.git")]⟩)]⟩)]

/-- A completed run over `regGit`. -/
def runGit : Except PyError RState :=
  resolve_dependency_and_queue_urls npmSpecSelect regGit 5 [("a", "1.0.0")] ⟨[], []⟩

/-- Registry scenario with a clean transitive dependency: `a` depends on `b`. -/
def regChain : Registry :=
  [("a", ⟨[("1.0.0", ⟨"u", [("b", "1.0.0")]⟩)]⟩),
   ("b", ⟨[("1.0.0", ⟨"w", []⟩)]⟩)]

/-- Registry scenario for the unresolvable-specifier error: `p` only
publishes 1.0.0. -/
def regNoMatch : Registry := [("p", ⟨[("1.0.0", ⟨"u", []⟩)]⟩)]

/-! ## Theorems

First the order-theoretic backbone: each comparison building block is lawful,
hence semver precedence is a linear preorder on parsed versions. -/

theorem ncmp_eq_eq {a b : Nat} : ncmp a b = .eq ↔ a = b := by
  unfold ncmp
  split
  · simp only [reduceCtorEq, false_iff]; omega
  · split
    · simp only [reduceCtorEq, false_iff]; omega
    · simp only [true_iff]; omega

theorem ncmp_eq_gt {a b : Nat} : ncmp a b = .gt ↔ b < a := by
  unfold ncmp
  split
  · simp only [reduceCtorEq, false_iff]; omega
  · split
    · simp only [true_iff]; omega
    · simp only [reduceCtorEq, false_iff]; omega

theorem ncmp_eq_lt {a b : Nat} : ncmp a b = .lt ↔ a < b := by
  unfold ncmp
  split
  · simp only [true_iff]; omega
  · split
    · simp only [reduceCtorEq, false_iff]; omega
    · simp only [reduceCtorEq, false_iff]; omega

theorem ncmp_lawful : IsLawfulCmp ncmp := by
  refine ⟨fun a b => ncmp_eq_eq, fun a b c h1 h2 => ?_, fun a b => ?_⟩
  · rw [ncmp_eq_gt] at h1 h2 ⊢; omega
  · rcases Nat.lt_trichotomy a b with h | h | h
    · rw [ncmp_eq_lt.mpr h, ncmp_eq_gt.mpr h]; rfl
    · subst h; rw [ncmp_eq_eq.mpr rfl]; rfl
    · rw [ncmp_eq_gt.mpr h, ncmp_eq_lt.mpr h]; rfl

theorem char_toNat_inj {a b : Char} (h : a.toNat = b.toNat) : a = b := by
  apply Char.ext
  apply UInt32.toBitVec_injective
  exact BitVec.eq_of_toNat_eq h

theorem charCmp_lawful : IsLawfulCmp charCmp := by
  refine ⟨fun a b => ?_, fun a b c h1 h2 => ?_, fun a b => ?_⟩
  · unfold charCmp
    rw [ncmp_eq_eq]
    exact ⟨char_toNat_inj, fun h => by rw [h]⟩
  · exact ncmp_lawful.gt_trans _ _ _ h1 h2
  · exact ncmp_lawful.swap_eq _ _

theorem lexCmp_lawful {α : Type} {f : α → α → Ordering} (hf : IsLawfulCmp f) :
    IsLawfulCmp (lexCmp f) := by
  refine ⟨fun as => ?_, fun as => ?_, fun as => ?_⟩
  · induction as with
    | nil =>
      intro bs; cases bs <;> simp [lexCmp]
    | cons a as ih =>
      intro bs
      cases bs with
      | nil => simp [lexCmp]
      | cons b bs =>
        simp only [lexCmp]
        cases hab : f a b with
        | eq =>
          have : a = b := (hf.eq_iff a b).mp hab
          subst this
          simp [ih bs]
        | lt =>
          have : a ≠ b := fun h => by
            subst h; rw [(hf.eq_iff a a).mpr rfl] at hab; cases hab
          simp [this]
        | gt =>
          have : a ≠ b := fun h => by
            subst h; rw [(hf.eq_iff a a).mpr rfl] at hab; cases hab
          simp [this]
  · induction as with
    | nil =>
      intro bs cs h1 h2
      cases bs with
      | nil => exact h2
      | cons b bs => simp [lexCmp] at h1
    | cons a as ih =>
      intro bs cs h1 h2
      cases bs with
      | nil => cases cs <;> simp [lexCmp] at h2
      | cons b bs =>
        cases cs with
        | nil => simp [lexCmp]
        | cons c cs =>
          simp only [lexCmp] at h1 h2 ⊢
          cases hab : f a b with
          | lt => rw [hab] at h1; cases h1
          | eq =>
            rw [hab] at h1
            have hab' : a = b := (hf.eq_iff a b).mp hab
            subst hab'
            cases hac : f a c with
            | lt => rw [hac] at h2; cases h2
            | eq =>
              rw [hac] at h2
              exact ih bs cs h1 h2
            | gt => rfl
          | gt =>
            rw [hab] at h1
            cases hbc : f b c with
            | lt => rw [hbc] at h2; cases h2
            | eq =>
              have hbc' : b = c := (hf.eq_iff b c).mp hbc
              subst hbc'
              rw [hab]
            | gt =>
              rw [hf.gt_trans a b c hab hbc]
  · induction as with
    | nil => intro bs; cases bs <;> rfl
    | cons a as ih =>
      intro bs
      cases bs with
      | nil => rfl
      | cons b bs =>
        simp only [lexCmp]
        rw [hf.swap_eq a b]
        cases f b a with
        | lt => rfl
        | gt => rfl
        | eq => simpa using ih bs

theorem preIdCmp_lawful : IsLawfulCmp preIdCmp := by
  have hs := lexCmp_lawful charCmp_lawful
  refine ⟨fun a b => ?_, fun a b c h1 h2 => ?_, fun a b => ?_⟩
  · cases a with
    | num n =>
      cases b with
      | num m => simp only [preIdCmp, PreId.num.injEq]; exact ncmp_eq_eq
      | alpha t => simp [preIdCmp]
    | alpha s =>
      cases b with
      | num m => simp [preIdCmp]
      | alpha t => simp only [preIdCmp, PreId.alpha.injEq]; exact hs.eq_iff _ _
  · cases a <;> cases b <;> cases c <;> simp only [preIdCmp] at h1 h2 ⊢
    all_goals try exact absurd h1 (by decide)
    all_goals try exact absurd h2 (by decide)
    · exact ncmp_lawful.gt_trans _ _ _ h1 h2
    · exact hs.gt_trans _ _ _ h1 h2
  · cases a <;> cases b <;> simp only [preIdCmp]
    all_goals try rfl
    · exact ncmp_lawful.swap_eq _ _
    · exact hs.swap_eq _ _

theorem optTopCmp_lawful {α : Type} {f : α → α → Ordering} (hf : IsLawfulCmp f) :
    IsLawfulCmp (optTopCmp f) := by
  refine ⟨fun a b => ?_, fun a b c h1 h2 => ?_, fun a b => ?_⟩
  · cases a with
    | none =>
      cases b with
      | none => simp [optTopCmp]
      | some y => simp [optTopCmp]
    | some x =>
      cases b with
      | none => simp [optTopCmp]
      | some y => simp only [optTopCmp, Option.some.injEq]; exact hf.eq_iff _ _
  · cases a <;> cases b <;> cases c <;> simp only [optTopCmp] at h1 h2 ⊢
    all_goals try exact absurd h1 (by decide)
    all_goals try exact absurd h2 (by decide)
    exact hf.gt_trans _ _ _ h1 h2
  · cases a <;> cases b <;> simp only [optTopCmp]
    all_goals try rfl
    exact hf.swap_eq _ _

theorem ordering_then_eq_eq {o1 o2 : Ordering} :
    o1.then o2 = .eq ↔ o1 = .eq ∧ o2 = .eq := by
  cases o1 <;> simp [Ordering.then]

theorem ordering_then_eq_gt {o1 o2 : Ordering} :
    o1.then o2 = .gt ↔ o1 = .gt ∨ (o1 = .eq ∧ o2 = .gt) := by
  cases o1 <;> simp [Ordering.then]

theorem ordering_then_swap {o1 o2 : Ordering} :
    (o1.then o2).swap = o1.swap.then o2.swap := by
  cases o1 <;> rfl

theorem pairCmp_lawful {α β : Type} {f : α → α → Ordering} {g : β → β → Ordering}
    (hf : IsLawfulCmp f) (hg : IsLawfulCmp g) : IsLawfulCmp (pairCmp f g) := by
  refine ⟨fun p q => ?_, fun p q r h1 h2 => ?_, fun p q => ?_⟩
  · unfold pairCmp
    rw [ordering_then_eq_eq, hf.eq_iff, hg.eq_iff]
    constructor
    · rintro ⟨h1, h2⟩; exact Prod.ext h1 h2
    · rintro rfl; exact ⟨rfl, rfl⟩
  · unfold pairCmp at h1 h2 ⊢
    rw [ordering_then_eq_gt] at h1 h2 ⊢
    rcases h1 with h1 | ⟨h1e, h1g⟩
    · rcases h2 with h2 | ⟨h2e, h2g⟩
      · exact Or.inl (hf.gt_trans _ _ _ h1 h2)
      · rw [(hf.eq_iff _ _).mp h2e] at h1; exact Or.inl h1
    · rcases h2 with h2 | ⟨h2e, h2g⟩
      · rw [← (hf.eq_iff _ _).mp h1e] at h2; exact Or.inl h2
      · rw [(hf.eq_iff _ _).mp h1e]
        exact Or.inr ⟨h2e, hg.gt_trans _ _ _ h1g h2g⟩
  · unfold pairCmp
    rw [ordering_then_swap, hf.swap_eq p.1 q.1, hg.swap_eq p.2 q.2]

theorem vkeyCmp_lawful : IsLawfulCmp vkeyCmp :=
  pairCmp_lawful ncmp_lawful (pairCmp_lawful ncmp_lawful (pairCmp_lawful ncmp_lawful
    (optTopCmp_lawful (lexCmp_lawful preIdCmp_lawful))))

theorem vcmp_self (a : VersionInfo) : vcmp a a = .eq :=
  (vkeyCmp_lawful.eq_iff _ _).mpr rfl

theorem vcmp_gt_trans {a b c : VersionInfo} (h1 : vcmp a b = .gt)
    (h2 : vcmp b c = .gt) : vcmp a c = .gt :=
  vkeyCmp_lawful.gt_trans _ _ _ h1 h2

theorem vcmp_key_congr {a b c : VersionInfo} (h : vcmp a b = .eq) :
    vcmp a c = vcmp b c := by
  unfold vcmp at h ⊢
  rw [(vkeyCmp_lawful.eq_iff _ _).mp h]

theorem vcmp_swap (a b : VersionInfo) : vcmp a b = (vcmp b a).swap :=
  vkeyCmp_lawful.swap_eq _ _

theorem vcmp_le_trans {a b c : VersionInfo} (h1 : vcmp a b ≠ .gt)
    (h2 : vcmp b c ≠ .gt) : vcmp a c ≠ .gt := by
  intro hc
  cases hab : vcmp a b with
  | gt => exact h1 hab
  | eq => exact h2 (by rw [← vcmp_key_congr hab]; exact hc)
  | lt =>
    have hba : vcmp b a = .gt := by
      have := vcmp_swap a b
      rw [hab] at this
      cases hba' : vcmp b a <;> rw [hba'] at this <;> first | rfl | cases this
    exact h2 (vcmp_gt_trans hba hc)

/-! ### Python max-by-parse -/

theorem pymaxGo_spec :
    ∀ (ys : List String) (cur v : String) (curK : VersionInfo),
      VersionInfo.parse cur = some curK → pymaxGo cur curK ys = some v →
      (v = cur ∨ v ∈ ys) ∧
        ∃ kv, VersionInfo.parse v = some kv ∧ vcmp curK kv ≠ .gt ∧
          ∀ y ∈ ys, ∃ ky, VersionInfo.parse y = some ky ∧ vcmp ky kv ≠ .gt := by
  intro ys
  induction ys with
  | nil =>
    intro cur v curK hp h
    simp only [pymaxGo, Option.some.injEq] at h
    subst h
    exact ⟨Or.inl rfl, curK, hp, by simp [vcmp_self], by simp⟩
  | cons y ys ih =>
    intro cur v curK hp h
    simp only [pymaxGo] at h
    cases hky : VersionInfo.parse y with
    | none => rw [hky] at h; simp at h
    | some ky =>
      rw [hky] at h
      simp only [Option.some_bind] at h
      by_cases hgt : vcmp ky curK = .gt
      · rw [if_pos hgt] at h
        obtain ⟨hmem, kv, hkv, hle, hall⟩ := ih y v ky hky h
        have hcur : vcmp curK kv ≠ .gt := by
          intro hc
          have hyk : vcmp ky kv = .gt := vcmp_gt_trans hgt hc
          exact hle hyk
        refine ⟨?_, kv, hkv, hcur, ?_⟩
        · rcases hmem with h' | h'
          · exact Or.inr (by simp [h'])
          · exact Or.inr (by simp [h'])
        · intro z hz
          rcases List.mem_cons.mp hz with h' | h'
          · subst h'; exact ⟨ky, hky, hle⟩
          · exact hall z h'
      · rw [if_neg hgt] at h
        obtain ⟨hmem, kv, hkv, hle, hall⟩ := ih cur v curK hp h
        refine ⟨?_, kv, hkv, hle, ?_⟩
        · rcases hmem with h' | h'
          · exact Or.inl h'
          · exact Or.inr (by simp [h'])
        · intro z hz
          rcases List.mem_cons.mp hz with h' | h'
          · subst h'
            refine ⟨ky, hky, ?_⟩
            intro hc
            cases hko : vcmp ky curK with
            | gt => exact hgt hko
            | eq => exact hle (by rw [← vcmp_key_congr hko]; exact hc)
            | lt =>
              have hck : vcmp curK ky = .gt := by
                have := vcmp_swap ky curK
                rw [hko] at this
                cases h'' : vcmp curK ky <;> rw [h''] at this <;>
                  first | rfl | cases this
              exact hle (vcmp_gt_trans hck hc)
          · exact hall z h'

theorem pymaxBy_spec (l : List String) (v : String) (h : pymaxBy l = some v) :
    v ∈ l ∧ ∃ kv, VersionInfo.parse v = some kv ∧
      ∀ y ∈ l, ∃ ky, VersionInfo.parse y = some ky ∧ vcmp ky kv ≠ .gt := by
  cases l with
  | nil => simp [pymaxBy] at h
  | cons x xs =>
    simp only [pymaxBy] at h
    cases hkx : VersionInfo.parse x with
    | none => rw [hkx] at h; simp at h
    | some kx =>
      rw [hkx] at h
      simp only [Option.some_bind] at h
      obtain ⟨hmem, kv, hkv, hle, hall⟩ := pymaxGo_spec xs x v kx hkx h
      refine ⟨?_, kv, hkv, ?_⟩
      · rcases hmem with h' | h'
        · simp [h']
        · simp [h']
      · intro y hy
        rcases List.mem_cons.mp hy with h' | h'
        · subst h'; exact ⟨kx, hkx, hle⟩
        · exact hall y h'

/-! ### The filter of resolve_version -/

theorem filterValid_spec (cs : List (List Char)) :
    ∀ (V valid : List String), filterValid cs V = some valid →
      (∀ x ∈ valid, x ∈ V ∧ checkAllConstraints cs x = some true) ∧
      (∀ w ∈ V, ∃ b, checkAllConstraints cs w = some b ∧ (b = true → w ∈ valid)) := by
  intro V
  induction V with
  | nil =>
    intro valid h
    simp only [filterValid, Option.some.injEq] at h
    subst h
    simp
  | cons v vs ih =>
    intro valid h
    simp only [filterValid] at h
    cases hcv : checkAllConstraints cs v with
    | none => rw [hcv] at h; simp at h
    | some b =>
      rw [hcv] at h
      simp only [Option.some_bind] at h
      cases hfv : filterValid cs vs with
      | none => rw [hfv] at h; simp at h
      | some rest =>
        rw [hfv] at h
        simp only [Option.map_some'] at h
        obtain ⟨hfwd, hbwd⟩ := ih rest hfv
        constructor
        · intro x hx
          by_cases hb : b = true
          · rw [if_pos hb] at h
            injection h with h
            subst h
            rcases List.mem_cons.mp hx with h' | h'
            · subst h'; exact ⟨List.mem_cons_self .., by rw [hcv, hb]⟩
            · obtain ⟨h1, h2⟩ := hfwd x h'
              exact ⟨List.mem_cons_of_mem _ h1, h2⟩
          · rw [if_neg hb] at h
            injection h with h
            subst h
            obtain ⟨h1, h2⟩ := hfwd x hx
            exact ⟨List.mem_cons_of_mem _ h1, h2⟩
        · intro w hw
          rcases List.mem_cons.mp hw with h' | h'
          · subst h'
            refine ⟨b, hcv, fun hb => ?_⟩
            rw [if_pos hb] at h
            injection h with h
            subst h
            exact List.mem_cons_self ..
          · obtain ⟨b', hb1, hb2⟩ := hbwd w h'
            refine ⟨b', hb1, fun hb => ?_⟩
            have := hb2 hb
            split at h <;>
              (injection h with h; subst h;
                first | exact List.mem_cons_of_mem _ this | exact this)

/-- C1: whenever `resolve_version` (the Select operation, identical to
main.py's `resolve_package_version`) applied to a specifier `s` and available
versions `V` returns a version `v`, then `v ∈ V`, `v` matches `s`, and every
`w ∈ V` matching `s` satisfies `w ≤ v` by semver precedence. -/
theorem resolve_version_select_sound (s : String) (V : List String) (v : String)
    (h : resolve_version s V = some (some v)) :
    v ∈ V ∧ specMatches s v = some true ∧
      ∀ w ∈ V, specMatches s w = some true → semverLe w v := by
  unfold resolve_version at h
  split at h
  case isTrue hw =>
    cases hm : pymaxBy V with
    | none => rw [hm] at h; simp at h
    | some m =>
      rw [hm] at h
      have hv : m = v := by simpa using h
      subst hv
      obtain ⟨hmem, kv, hkv, hall⟩ := pymaxBy_spec V m hm
      refine ⟨hmem, ?_, ?_⟩
      · unfold specMatches; rw [if_pos hw]
      · intro w hwV _
        obtain ⟨kw, hkw, hle⟩ := hall w hwV
        exact ⟨kw, kv, hkw, hkv, hle⟩
  case isFalse hw =>
    split at h
    case isTrue hg => simp at h
    case isFalse hg =>
      split at h
      · simp at h
      · rename_i valid hf
        obtain ⟨hfwd, hbwd⟩ := filterValid_spec (splitWs s.data) V valid hf
        split at h
        · simp at h
        · cases hm : pymaxBy valid with
          | none => rw [hm] at h; simp at h
          | some m =>
            rw [hm] at h
            have hv : m = v := by simpa using h
            subst hv
            obtain ⟨hmemValid, kv, hkv, hall⟩ := pymaxBy_spec valid m hm
            obtain ⟨hmemV, hchk⟩ := hfwd m hmemValid
            refine ⟨hmemV, ?_, ?_⟩
            · unfold specMatches; rw [if_neg hw]; exact hchk
            · intro w hwV hmatch
              unfold specMatches at hmatch
              rw [if_neg hw] at hmatch
              obtain ⟨b, hb1, hb2⟩ := hbwd w hwV
              have hb : b = true := by
                rw [hb1] at hmatch
                exact (Option.some.injEq _ _).mp hmatch
              obtain ⟨kw, hkw, hle⟩ := hall w (hb2 hb)
              exact ⟨kw, kv, hkw, hkv, hle⟩

/-- C1 witness: a concrete selection with `<2.0.0` over three versions picks
1.5.0, which belongs to the list, matches, and dominates every match. -/
theorem resolve_version_select_sound_witness :
    "1.5.0" ∈ ["1.0.0", "1.5.0", "2.1.0"] ∧
      specMatches "<2.0.0" "1.5.0" = some true ∧
      ∀ w ∈ ["1.0.0", "1.5.0", "2.1.0"],
        specMatches "<2.0.0" w = some true → semverLe w "1.5.0" :=
  resolve_version_select_sound "<2.0.0" ["1.0.0", "1.5.0", "2.1.0"] "1.5.0" rfl

/-! ### Direct evaluations of the constraint checker bugs -/

/-- C2: the caret branch of `check_version` accepts any higher major, so
`^1.2.3` matches 2.0.0 (and also 1.2.0, which is below the pivot), against
the npm caret semantics the specification mandates. -/
theorem check_version_caret_bug :
    check_version ⟨2, 0, 0, none, none⟩ "^1.2.3".data = some true ∧
      check_version ⟨1, 2, 0, none, none⟩ "^1.2.3".data = some true :=
  ⟨rfl, rfl⟩

/-- C3: `check_version` tests the prefix `>` before `>=`, so `>=1.0.0` is
parsed as operator `>` with operand `=1.0.0` and raises InvalidVersion
(modelled by `none`) instead of returning true on the equal version. -/
theorem check_version_ge_shadowed :
    check_version ⟨1, 0, 0, none, none⟩ ">=1.0.0".data = none := rfl

/-- C7: the specifier is whitespace-split before `check_version` ever sees
`||`, so `1.x || 2.x` becomes the conjunction of the tokens `1.x`, `||` and
`2.x`; checking `1.x` raises a parse error and selection aborts instead of
returning 2.1.0. -/
theorem resolve_version_oror_whitespace_bug :
    resolve_version "1.x || 2.x" ["0.9.0", "1.5.0", "2.1.0", "3.0.0"] = none ∧
      splitWs "1.x || 2.x".data = ["1.x".data, "||".data, "2.x".data] :=
  ⟨rfl, rfl⟩

/-- C10 counterexample: the token `1.0.0-2.0.0` has no operator prefix,
contains a hyphen, and is a well-formed prerelease version, yet matching it
returns the boolean `true` (the inclusive-range check) rather than raising. -/
theorem check_version_hyphen_counterexample :
    check_version ⟨1, 5, 0, none, none⟩ "1.0.0-2.0.0".data = some true ∧
      (VersionInfo.parse "1.0.0-2.0.0").isSome = true :=
  ⟨rfl, rfl⟩

theorem startsWith_two_false {c : List Char} {a b : Char}
    (h : startsWithCh c [a] = false) : startsWithCh c [a, b] = false := by
  cases c with
  | nil => rfl
  | cons x xs =>
    by_cases hax : a == x
    · exfalso
      simp only [startsWithCh, List.isPrefixOf, hax, Bool.true_and,
        List.isPrefixOf] at h
      simp at h
    · simp only [startsWithCh, List.isPrefixOf] at h ⊢
      simp only [Bool.not_eq_true] at hax
      rw [hax]
      rfl

/-- C10 (amended): every constraint token without a comparator, tilde or
caret prefix that contains a hyphen is handled by the hyphen-range branch of
`check_version` (the exact-equality branch is unreachable for it).  For the
prerelease version `1.2.3-beta` -- whose hyphen piece `beta` is not a
version -- matching a version satisfying the lower bound raises a
version-parse error instead of returning a boolean (the chained comparison
short-circuits to `False` for versions below the lower piece). -/
theorem check_version_hyphen_first (vi : VersionInfo) (c : List Char)
    (h1 : startsWithCh c ['>'] = false) (h2 : startsWithCh c ['<'] = false)
    (h3 : startsWithCh c ['~'] = false) (h4 : startsWithCh c ['^'] = false)
    (h5 : hasHyphen c = true) :
    check_version vi c = hyphenRangeCheck vi c ∧
      check_version ⟨1, 5, 0, none, none⟩ "1.2.3-beta".data = none := by
  constructor
  · unfold check_version check_atom
    rw [h1, h2, h3, h4, h5, startsWith_two_false h1, startsWith_two_false h2]
    simp [hyphenRangeCheck]
  · rfl

/-- C10 witness: the amended statement instantiated at version 1.5.0 and the
token `1.0.0-2.0.0`. -/
theorem check_version_hyphen_first_witness :
    startsWithCh "1.0.0-2.0.0".data ['>'] = false ∧
      startsWithCh "1.0.0-2.0.0".data ['<'] = false ∧
      startsWithCh "1.0.0-2.0.0".data ['~'] = false ∧
      startsWithCh "1.0.0-2.0.0".data ['^'] = false ∧
      hasHyphen "1.0.0-2.0.0".data = true ∧
      (check_version ⟨1, 5, 0, none, none⟩ "1.0.0-2.0.0".data =
          hyphenRangeCheck ⟨1, 5, 0, none, none⟩ "1.0.0-2.0.0".data ∧
        check_version (⟨1, 5, 0, none, none⟩ : VersionInfo) "1.2.3-beta".data = none) :=
  ⟨rfl, rfl, rfl, rfl, rfl,
    check_version_hyphen_first ⟨1, 5, 0, none, none⟩ "1.0.0-2.0.0".data
      rfl rfl rfl rfl rfl⟩

/-! ### The unresolvable-specifier error path (yap.py) -/

/-- C6: a specifier no available version satisfies makes
`semantic_version.select` return `None`, which `resolve_version` stringifies
to `"None"`; the truthiness guard does not fire and the versions lookup
raises KeyError -- not the intended MetadataError. -/
theorem resolve_no_matching_version_keyerror :
    resolve_single_dependency npmSpecSelect regNoMatch 5 "p" "^2.0.0" ⟨[], []⟩ =
        .error .keyError ∧
      npmSpecSelect "^2.0.0" ["1.0.0"] = some none ∧
      resolve_version_yap npmSpecSelect "^2.0.0" ["1.0.0"] = some "None" :=
  ⟨rfl, rfl, rfl⟩

/-! ### The symlink replacement gap (yap.py) -/

/-- C8: a dangling symlink at the destination is reported as non-existent by
both `exists()` and `is_file()` (they follow the link), so `create_symlink`
skips the unlink and `os.symlink` raises FileExistsError; the claimed
remove-then-create behaviour fails exactly on the claim's highlighted case. -/
theorem create_symlink_dangling_bug :
    create_symlink (some .danglingSymlink) = .error .fileExistsError ∧
      symlink_to_root (some .danglingSymlink) = .error .fileExistsError ∧
      path_exists (some .danglingSymlink) = false ∧
      path_is_file (some .danglingSymlink) = false :=
  ⟨rfl, rfl, rfl, rfl⟩

/-! ### The metadata cache round trip (yap.py) -/

/-- C9: reading the metadata cache after a successful write of the same
package name returns exactly the stored document; both operations escape the
name by the same `/` to `_` substitution, so the round trip is the
identity. -/
theorem metadata_cache_roundtrip {δ : Type} (cache : String → Option δ)
    (name : String) (d : δ) :
    get_from_metadata_cache (set_to_metadata_cache cache name d) name = some d := by
  unfold get_from_metadata_cache set_to_metadata_cache
  simp

/-! ### Counterexamples for the plan invariants -/

/-- C4 counterexample: re-targeting `foo` to `bar` through an `npm:` alias
while `bar` is also requested directly completes successfully and produces
two plan entries named `bar`. -/
theorem resolver_alias_duplicate_counterexample :
    planNamesOf runAlias = ["bar", "bar"] ∧ ¬ (planNamesOf runAlias).Nodup :=
  ⟨rfl, by decide⟩

/-- C5 counterexample: a transitive dependency with a `git+` specifier is
skipped without a plan entry, yet stays listed in its parent's dependencies,
so the completed plan is not closed. -/
theorem resolver_git_closure_counterexample :
    ¬ planClosed runGit ∧ planNamesOf runGit = ["a"] :=
  ⟨by decide, rfl⟩

/-! ### Plan invariants of the resolver walk -/

theorem lookup_mem {β : Type} :
    ∀ {l : List (String × β)} {k : String} {v : β},
      List.lookup k l = some v → (k, v) ∈ l := by
  intro l
  induction l with
  | nil => intro k v h; simp [List.lookup] at h
  | cons p ps ih =>
    intro k v h
    obtain ⟨a, b⟩ := p
    rw [List.lookup] at h
    split at h
    · rename_i hba
      injection h with h
      subst h
      have hk : k = a := by
        have := hba
        simp only [beq_iff_eq] at this
        exact this
      subst hk
      exact List.mem_cons_self ..
    · exact List.mem_cons_of_mem _ (ih h)

/-- The no-alias traversal invariant: when no `npm:` specifier occurs, a
successful step only grows the seen-set, appends entries whose names were
gated by this step (hence fresh and pairwise distinct), and every appended
name is seen afterwards. -/
theorem resolveGo_noalias_aux (sel : String → List String → Option (Option String))
    (reg : Registry) (hreg : noAliasReg reg = true) :
    ∀ (fuel : Nat) (inp : (String × String) ⊕ List (String × String)) (st st' : RState),
      (match inp with
       | .inl p => startsWithCh p.2.data ['n', 'p', 'm', ':'] = false
       | .inr deps => noAliasDeps deps = true) →
      resolveGo sel reg fuel inp st = .ok st' →
      (∀ x ∈ st.seen, x ∈ st'.seen) ∧
        ∃ new, st'.plan = st.plan ++ new ∧ (new.map PlanEntry.name).Nodup ∧
          ∀ e ∈ new, e.name ∈ st'.seen ∧ e.name ∉ st.seen := by
  intro fuel
  induction fuel with
  | zero =>
    intro inp st st' _ h
    simp [resolveGo] at h
  | succ fuel ih =>
    intro inp st st' hcl h
    rcases inp with ⟨name, spec⟩ | deps
    · -- one resolve_single_dependency call
      simp only at hcl
      rw [resolveGo] at h
      by_cases hseen : name ∈ st.seen
      · rw [if_pos hseen] at h
        injection h with h
        subst h
        exact ⟨fun x hx => hx, [], by simp, List.nodup_nil, by simp⟩
      · rw [if_neg hseen] at h
        split at h
        · -- git specifier: gated but no entry
          injection h with h
          subst h
          refine ⟨fun x hx => List.mem_cons_of_mem _ hx, [], by simp,
            List.nodup_nil, by simp⟩
        · -- semver specifier, no alias
          rw [if_neg (by simp [hcl])] at h
          split at h
          · simp at h
          · rename_i name2 spec2 heqp
            injection heqp with heqp
            injection heqp with he1 he2
            subst he1
            subst he2
            split at h
            · simp at h
            · rename_i md hlk
              split at h
              · simp at h
              · rename_i rv hrv
                split at h
                · simp at h
                · split at h
                  · simp at h
                  · rename_i vm hvm
                    split at h
                    · simp at h
                    · rename_i st2 hrec
                      injection h with h
                      subst h
                      have hdeps : noAliasDeps vm.dependencies = true := by
                        have h1 : (name, md) ∈ reg := lookup_mem hlk
                        have h2 : (rv, vm) ∈ md.versions := lookup_mem hvm
                        have h3 := (List.all_eq_true.mp hreg) (name, md) h1
                        exact (List.all_eq_true.mp h3) (rv, vm) h2
                      obtain ⟨sub2, new2, hp2, hn2, he2⟩ :=
                        ih (.inr vm.dependencies) ⟨name :: st.seen, st.plan⟩ st2 hdeps hrec
                      refine ⟨fun x hx => sub2 x (List.mem_cons_of_mem _ hx),
                        new2 ++ [⟨vm.tarball, name, rv, vm.dependencies⟩], ?_, ?_, ?_⟩
                      · simp only at hp2
                        rw [hp2, List.append_assoc]
                      · rw [List.map_append]
                        refine List.Nodup.append hn2 (by simp) ?_
                        intro a ha1 ha2
                        obtain ⟨e2, he2m, he2n⟩ := List.mem_map.mp ha1
                        simp only [List.map_cons, List.map_nil, List.mem_singleton] at ha2
                        obtain ⟨-, hnin⟩ := he2 e2 he2m
                        apply hnin
                        rw [he2n, ha2]
                        exact List.mem_cons_self ..
                      · intro e hee
                        rcases List.mem_append.mp hee with h' | h'
                        · obtain ⟨hin, hnin⟩ := he2 e h'
                          exact ⟨hin, fun hx => hnin (List.mem_cons_of_mem _ hx)⟩
                        · simp only [List.mem_singleton] at h'
                          subst h'
                          exact ⟨sub2 name (List.mem_cons_self ..), hseen⟩
    · -- one resolve_dependency_and_queue_urls expansion
      cases deps with
      | nil =>
        rw [resolveGo] at h
        injection h with h
        subst h
        exact ⟨fun x hx => hx, [], by simp, List.nodup_nil, by simp⟩
      | cons d rest =>
        obtain ⟨n, s⟩ := d
        rw [resolveGo] at h
        split at h
        · simp at h
        · rename_i st1 h1
          simp only [noAliasDeps, List.all_cons, Bool.and_eq_true,
            Bool.not_eq_true'] at hcl
          obtain ⟨hclh, hclr⟩ := hcl
          obtain ⟨sub1, new1, hp1, hn1, he1⟩ := ih (.inl (n, s)) st st1 hclh h1
          obtain ⟨sub2, new2, hp2, hn2, he2⟩ := ih (.inr rest) st1 st' hclr h
          refine ⟨fun x hx => sub2 x (sub1 x hx), new1 ++ new2, ?_, ?_, ?_⟩
          · rw [hp2, hp1, List.append_assoc]
          · rw [List.map_append]
            refine List.Nodup.append hn1 hn2 ?_
            intro a ha1 ha2
            obtain ⟨e1, he1m, he1n⟩ := List.mem_map.mp ha1
            obtain ⟨e2, he2m, he2n⟩ := List.mem_map.mp ha2
            obtain ⟨h1in, -⟩ := he1 e1 he1m
            obtain ⟨-, h2nin⟩ := he2 e2 he2m
            apply h2nin
            rw [he2n, ← he1n]
            exact h1in
          · intro e hee
            rcases List.mem_append.mp hee with h' | h'
            · obtain ⟨hin, hnin⟩ := he1 e h'
              exact ⟨sub2 _ hin, hnin⟩
            · obtain ⟨hin, hnin⟩ := he2 e h'
              exact ⟨hin, fun hx => hnin (sub1 _ hx)⟩

/-- The clean traversal invariant: when no specifier is a git form or an
`npm:` alias, a successful step only grows the seen-set, gates every
processed dependency name into it, every newly gated name receives a plan
entry, and every dependency name mentioned by a new entry is seen
afterwards. -/
theorem resolveGo_clean_aux (sel : String → List String → Option (Option String))
    (reg : Registry) (hreg : cleanReg reg = true) :
    ∀ (fuel : Nat) (inp : (String × String) ⊕ List (String × String)) (st st' : RState),
      (match inp with
       | .inl p => cleanSpec p.2 = true
       | .inr deps => cleanDeps deps = true) →
      resolveGo sel reg fuel inp st = .ok st' →
      (∀ x ∈ st.seen, x ∈ st'.seen) ∧
        (match inp with
         | .inl p => p.1 ∈ st'.seen
         | .inr deps => ∀ d ∈ deps, d.1 ∈ st'.seen) ∧
        ∃ new, st'.plan = st.plan ++ new ∧
          (∀ e ∈ new, ∀ d ∈ e.dependencies, d.1 ∈ st'.seen) ∧
          (∀ x ∈ st'.seen, x ∈ st.seen ∨ x ∈ new.map PlanEntry.name) := by
  intro fuel
  induction fuel with
  | zero =>
    intro inp st st' _ h
    simp [resolveGo] at h
  | succ fuel ih =>
    intro inp st st' hcl h
    rcases inp with ⟨name, spec⟩ | deps
    · simp only at hcl ⊢
      simp only [cleanSpec, Bool.and_eq_true, Bool.not_eq_true'] at hcl
      obtain ⟨⟨hg1, hg2⟩, hg3⟩ := hcl
      rw [resolveGo] at h
      by_cases hseen : name ∈ st.seen
      · rw [if_pos hseen] at h
        injection h with h
        subst h
        exact ⟨fun x hx => hx, hseen, [], by simp, by simp, fun x hx => Or.inl hx⟩
      · rw [if_neg hseen] at h
        rw [if_neg (by simp [hg1, hg2])] at h
        rw [if_neg (by simp [hg3])] at h
        split at h
        · simp at h
        · rename_i name2 spec2 heqp
          injection heqp with heqp
          injection heqp with he1 he2
          subst he1
          subst he2
          split at h
          · simp at h
          · rename_i md hlk
            split at h
            · simp at h
            · rename_i rv hrv
              split at h
              · simp at h
              · split at h
                · simp at h
                · rename_i vm hvm
                  split at h
                  · simp at h
                  · rename_i st2 hrec
                    injection h with h
                    subst h
                    have hdeps : cleanDeps vm.dependencies = true := by
                      have h1 : (name, md) ∈ reg := lookup_mem hlk
                      have h2 : (rv, vm) ∈ md.versions := lookup_mem hvm
                      have h3 := (List.all_eq_true.mp hreg) (name, md) h1
                      exact (List.all_eq_true.mp h3) (rv, vm) h2
                    obtain ⟨sub2, hdall, new2, hp2, hm2, hcov2⟩ :=
                      ih (.inr vm.dependencies) ⟨name :: st.seen, st.plan⟩ st2 hdeps hrec
                    simp only at hdall hp2
                    refine ⟨fun x hx => sub2 x (List.mem_cons_of_mem _ hx),
                      sub2 name (List.mem_cons_self ..),
                      new2 ++ [⟨vm.tarball, name, rv, vm.dependencies⟩], ?_, ?_, ?_⟩
                    · rw [hp2, List.append_assoc]
                    · intro e hee
                      rcases List.mem_append.mp hee with h' | h'
                      · exact hm2 e h'
                      · simp only [List.mem_singleton] at h'
                        subst h'
                        exact hdall
                    · intro x hx
                      rcases hcov2 x hx with h' | h'
                      · rcases List.mem_cons.mp h' with h'' | h''
                        · subst h''
                          refine Or.inr ?_
                          rw [List.map_append]
                          exact List.mem_append.mpr (Or.inr (by simp))
                        · exact Or.inl h''
                      · refine Or.inr ?_
                        rw [List.map_append]
                        exact List.mem_append.mpr (Or.inl h')
    · cases deps with
      | nil =>
        rw [resolveGo] at h
        injection h with h
        subst h
        exact ⟨fun x hx => hx, by simp, [], by simp, by simp, fun x hx => Or.inl hx⟩
      | cons d rest =>
        obtain ⟨n, s⟩ := d
        rw [resolveGo] at h
        split at h
        · simp at h
        · rename_i st1 h1
          simp only [cleanDeps, List.all_cons, Bool.and_eq_true] at hcl
          obtain ⟨hclh, hclr⟩ := hcl
          obtain ⟨sub1, hn1, new1, hp1, hm1, hcov1⟩ := ih (.inl (n, s)) st st1 hclh h1
          obtain ⟨sub2, hn2, new2, hp2, hm2, hcov2⟩ := ih (.inr rest) st1 st' hclr h
          simp only at hn1 hn2
          refine ⟨fun x hx => sub2 x (sub1 x hx), ?_, new1 ++ new2, ?_, ?_, ?_⟩
          · intro d hd
            rcases List.mem_cons.mp hd with h' | h'
            · subst h'
              exact sub2 _ hn1
            · exact hn2 d h'
          · rw [hp2, hp1, List.append_assoc]
          · intro e hee
            rcases List.mem_append.mp hee with h' | h'
            · intro d hd
              exact sub2 _ (hm1 e h' d hd)
            · exact hm2 e h'
          · intro x hx
            rcases hcov2 x hx with h' | h'
            · rcases hcov1 x h' with h'' | h''
              · exact Or.inl h''
              · refine Or.inr ?_
                rw [List.map_append]
                exact List.mem_append.mpr (Or.inl h'')
            · refine Or.inr ?_
              rw [List.map_append]
              exact List.mem_append.mpr (Or.inr h')

/-- C4 (amended): an install plan produced by a completed resolver run whose
specifiers never use an `npm:` alias has pairwise-distinct entry names (the
seen-set gates each requested name exactly once); with an alias that
re-targets to a name also resolved elsewhere the gate is keyed on the
pre-alias name and duplicate entries arise. -/
theorem resolver_plan_names_nodup (sel : String → List String → Option (Option String))
    (reg : Registry) (fuel : Nat) (deps : List (String × String)) (st' : RState)
    (h1 : noAliasDeps deps = true) (h2 : noAliasReg reg = true)
    (h3 : resolve_dependency_and_queue_urls sel reg fuel deps ⟨[], []⟩ = .ok st') :
    (st'.plan.map PlanEntry.name).Nodup := by
  obtain ⟨-, new, hplan, hnodup, -⟩ :=
    resolveGo_noalias_aux sel reg h2 fuel (.inr deps) ⟨[], []⟩ st' h1 h3
  simp only at hplan
  rw [hplan]
  simpa using hnodup

/-- C4 witness: a concrete alias-free run over `regAlias` whose plan has the
single name `bar`. -/
theorem resolver_plan_names_nodup_witness :
    noAliasDeps [("bar", "1.0.0")] = true ∧ noAliasReg regAlias = true ∧
      resolve_dependency_and_queue_urls npmSpecSelect regAlias 5
          [("bar", "1.0.0")] ⟨[], []⟩ =
        .ok ⟨["bar"], [⟨"u", "bar", "1.0.0", []⟩]⟩ ∧
      ((RState.mk ["bar"] [⟨"u", "bar", "1.0.0", []⟩]).plan.map PlanEntry.name).Nodup :=
  ⟨rfl, rfl, rfl,
    resolver_plan_names_nodup npmSpecSelect regAlias 5 [("bar", "1.0.0")]
      ⟨["bar"], [⟨"u", "bar", "1.0.0", []⟩]⟩ rfl rfl rfl⟩

/-- C5 (amended): an install plan produced by a completed resolver run whose
specifiers never carry a `git+`, `git:` or `npm:` form is transitively
closed: every name in some entry's dependencies is itself a plan entry name.
A git-specified transitive dependency is skipped without a plan entry, which
breaks the closure. -/
theorem resolver_plan_closed (sel : String → List String → Option (Option String))
    (reg : Registry) (fuel : Nat) (deps : List (String × String)) (st' : RState)
    (h1 : cleanDeps deps = true) (h2 : cleanReg reg = true)
    (h3 : resolve_dependency_and_queue_urls sel reg fuel deps ⟨[], []⟩ = .ok st') :
    planClosed (.ok st') := by
  obtain ⟨-, -, new, hplan, hment, hcov⟩ :=
    resolveGo_clean_aux sel reg h2 fuel (.inr deps) ⟨[], []⟩ st' h1 h3
  simp only at hplan
  simp only [planClosed]
  intro e he d hd
  have hseen : d.1 ∈ st'.seen := by
    refine hment e ?_ d hd
    rw [hplan] at he
    simpa using he
  rcases hcov d.1 hseen with h' | h'
  · simp at h'
  · rw [hplan]
    simpa using h'

/-- C5 witness: a concrete clean run over `regChain` whose two-entry plan is
closed. -/
theorem resolver_plan_closed_witness :
    cleanDeps [("a", "1.0.0")] = true ∧ cleanReg regChain = true ∧
      resolve_dependency_and_queue_urls npmSpecSelect regChain 5
          [("a", "1.0.0")] ⟨[], []⟩ =
        .ok ⟨["b", "a"], [⟨"w", "b", "1.0.0", []⟩,
          ⟨"u", "a", "1.0.0", [("b", "1.0.0")]⟩]⟩ ∧
      planClosed (.ok ⟨["b", "a"], [⟨"w", "b", "1.0.0", []⟩,
        ⟨"u", "a", "1.0.0", [("b", "1.0.0")]⟩]⟩) :=
  ⟨rfl, rfl, rfl,
    resolver_plan_closed npmSpecSelect regChain 5 [("a", "1.0.0")]
      ⟨["b", "a"], [⟨"w", "b", "1.0.0", []⟩, ⟨"u", "a", "1.0.0", [("b", "1.0.0")]⟩]⟩
      rfl rfl rfl⟩
